import Mathlib

/-!
A shallow embedding of the scheduling core of the AutoScheduler single-page
application (`script.js`): time helpers, the task ranker (`sortTasks`), the
first-fit gap scan (`findGap`), the schedule builder (`buildSchedule`), and
the interactive repositioning operations (`hasOverlap`, `moveBlock`,
`toggleBlockDone`, `removeBlock`).

Modelling conventions:
* times are minutes since midnight, modelled as `Nat`;
* a deadline instant is modelled at minute granularity as
  `day * 1440 + minuteOfDay`, which is order-isomorphic to the millisecond
  timestamps (`Date.getTime()`) the JavaScript code compares;
* the string fields (`priority`, `split`, ids, titles) are kept as `String`
  with the original Japanese literals;
* `uid()` (random id generation) is modelled by an explicit id supply
  `idOf : Nat → String` together with a counter threaded through the run,
  one fresh index per generated block, in program order;
* the `while (remaining > 0)` chunk-placement loop is written with an
  explicit fuel argument so that the recursion is structural; the fuel is
  initialised with `remaining` itself, which is provably sufficient because
  every iteration removes at least one minute.  The fuel-exhaustion branch
  is unreachable under `remaining ≤ fuel`.
-/

namespace AutoScheduler

/-- A schedule block, matching the persisted shape
`{id, taskId, title, startMin, endMin, fixed, done}` written by
`buildSchedule` (script.js:818-826). -/
structure Block where
  id : String
  taskId : String
  title : String
  startMin : Nat
  endMin : Nat
  fixed : Bool
  done : Bool
deriving DecidableEq

/-- A task record (script.js:597-607).  `deadlineDate = none` models the
empty string, `some d` a parsed calendar date as a day index;
`deadlineTime` likewise holds the parsed `HH:MM` value in minutes. -/
structure Task where
  id : String
  title : String
  duration : Nat
  priority : String
  split : String
  deadlineDate : Option Nat
  deadlineTime : Option Nat
  createdAt : Nat
  done : Bool
deriving DecidableEq

/-- The settings fields consumed by the scheduling core (script.js:578-586),
with the day window and lunch window already parsed to minutes.
`lunch = none` models the `"none"` setting. -/
structure Settings where
  dayStart : Nat
  dayEnd : Nat
  buffer : Nat
  strategy : String
  lunch : Option (Nat × Nat)
deriving DecidableEq

/-- `combineDateTime` (script.js:526-533), at minute granularity: no date
gives `null`; a date without a time-of-day is taken at 23:59. -/
def combineDateTime (dd : Option Nat) (dt : Option Nat) : Option Nat :=
  match dd with
  | none => none
  | some d =>
    match dt with
    | none => some (d * 1440 + 1439)
    | some t => some (d * 1440 + t)

/-- `priorityScore` (script.js:665): 高 = 3, 中 = 2, anything else = 1. -/
def priorityScore (p : String) : Nat :=
  if p = "高" then 3 else if p = "中" then 2 else 1

/-- The deadline sort key of a task (`dlMs` in `sortTasks`,
script.js:694-698), `none` standing for `Number.POSITIVE_INFINITY`. -/
def dlKey (t : Task) : Option Nat :=
  combineDateTime t.deadlineDate t.deadlineTime

/-- Strict order on deadline keys with `none` as plus infinity. -/
def optLt (x y : Option Nat) : Bool :=
  match x, y with
  | some a, some b => a < b
  | some _, none => true
  | none, _ => false

/-- The `strategy !== "priority"` comparator of `sortTasks`
(script.js:708-713) as a "compares less-or-equal" Boolean relation:
deadline ascending (`none` last), then priority descending, then creation
time ascending. -/
def leDue (a b : Task) : Bool :=
  if dlKey a = dlKey b then
    if priorityScore a.priority = priorityScore b.priority then
      a.createdAt ≤ b.createdAt
    else
      priorityScore b.priority < priorityScore a.priority
  else
    optLt (dlKey a) (dlKey b)

/-- The `strategy === "priority"` comparator of `sortTasks`
(script.js:701-706): priority descending, then deadline ascending
(`none` last), then creation time ascending. -/
def lePriority (a b : Task) : Bool :=
  if priorityScore a.priority = priorityScore b.priority then
    if dlKey a = dlKey b then
      a.createdAt ≤ b.createdAt
    else
      optLt (dlKey a) (dlKey b)
  else
    priorityScore b.priority < priorityScore a.priority

/-- `sortTasks` (script.js:692-716).  `Array.prototype.sort` is a stable
sort under the comparator, which we model with Mathlib's (stable)
insertion sort under the corresponding less-or-equal relation. -/
def sortTasks (strategy : String) (l : List Task) : List Task :=
  if strategy = "priority" then
    List.insertionSort (fun a b => lePriority a b = true) l
  else
    List.insertionSort (fun a b => leDue a b = true) l

/-- The by-start-time relation used by every `sort((a, b) => a.startMin -
b.startMin)` in the source. -/
def bleStart (a b : Block) : Prop :=
  a.startMin ≤ b.startMin

instance : DecidableRel bleStart := fun a b => Nat.decLe a.startMin b.startMin

instance : IsTotal Block bleStart := ⟨fun a b => Nat.le_total a.startMin b.startMin⟩

instance : IsTrans Block bleStart := ⟨fun _ _ _ h₁ h₂ => Nat.le_trans h₁ h₂⟩

/-- Stable sort of a block list by `startMin`, modelling
`[...blocks].sort((a, b) => a.startMin - b.startMin)`. -/
def sortByStart (l : List Block) : List Block :=
  List.insertionSort bleStart l

/-- `insertBlock` (script.js:746-749): push then re-sort by start. -/
def insertBlock (blk : Block) (l : List Block) : List Block :=
  sortByStart (l ++ [blk])

/-- The scanning loop of `findGap` (script.js:756-762): walk the blocks in
start order keeping a cursor; return the first fit, else try the tail end
of the day. -/
def findGapAux (buffer n endMin : Nat) : Nat → List Block → Option (Nat × Nat)
  | cur, [] => if cur + n ≤ endMin then some (cur, cur + n) else none
  | cur, b :: bs =>
    if cur + n ≤ b.startMin then some (cur, cur + n)
    else findGapAux buffer n endMin (max cur (b.endMin + buffer)) bs

/-- `findGap` (script.js:751-763): sort the current blocks by start and scan
from `startMin`. -/
def findGap (startMin endMin buffer : Nat) (dayBlocks : List Block) (duration : Nat) :
    Option (Nat × Nat) :=
  findGapAux buffer duration endMin startMin (sortByStart dayBlocks)

/-- Duration normalisation at script.js:768:
`Math.max(5, Math.round(duration / 5) * 5)`; `Math.round (d / 5)` for a
natural `d` is `(2 * d + 5) / 10` in integer arithmetic. -/
def normDur (t : Task) : Nat :=
  max 5 ((2 * t.duration + 5) / 10 * 5)

/-- The chunk-size choice at script.js:796:
`remaining >= 60 ? 60 : remaining >= 45 ? 45 : remaining >= 30 ? 30 :
remaining`. -/
def chunkOf (remaining : Nat) : Nat :=
  if 60 ≤ remaining then 60
  else if 45 ≤ remaining then 45
  else if 30 ≤ remaining then 30
  else remaining

/-- A freshly placed (non-fixed, not-done) block for task `t`. -/
def mkBlock (theId : String) (t : Task) (title : String) (s e : Nat) : Block :=
  { id := theId, taskId := t.id, title := title,
    startMin := s, endMin := e, fixed := false, done := false }

/-- The `while (remaining > 0)` loop of the splittable branch
(script.js:795-813), with structural fuel (see the header comment).
Returns the updated block list, the leftover minutes, and the next id
counter. -/
def placeSplit (startMin endMin buffer : Nat) (idOf : Nat → String) (t : Task)
    (dur : Nat) : Nat → Nat → List Block → Nat → List Block × Nat × Nat
  | _, 0, blocks, gen => (blocks, 0, gen)
  | 0, remaining + 1, blocks, gen => (blocks, remaining + 1, gen)
  | fuel + 1, remaining + 1, blocks, gen =>
    let chunk := chunkOf (remaining + 1)
    match findGap startMin endMin buffer blocks chunk with
    | none => (blocks, remaining + 1, gen)
    | some (s, e) =>
      placeSplit startMin endMin buffer idOf t dur fuel (remaining + 1 - chunk)
        (insertBlock
          (mkBlock (idOf gen) t
            (t.title ++ (if dur ≠ chunk then "（分割）" else "")) s e)
          blocks)
        (gen + 1)

/-- The per-task allocation loop of `buildSchedule` (script.js:767-815).
Returns the final block list, the unplaced list as (task, remaining
minutes) pairs — the code pushes the task itself for a non-splittable
task (full normalised duration as the implicit remainder) and
`{...t, _remaining}` for a split leftover — and the final id counter. -/
def allocTasks (startMin endMin buffer : Nat) (idOf : Nat → String) :
    List Task → List Block → Nat → List Block × List (Task × Nat) × Nat
  | [], blocks, gen => (blocks, [], gen)
  | t :: ts, blocks, gen =>
    let dur := normDur t
    if t.split = "不可" then
      match findGap startMin endMin buffer blocks dur with
      | none =>
        let r := allocTasks startMin endMin buffer idOf ts blocks gen
        (r.1, (t, dur) :: r.2.1, r.2.2)
      | some (s, e) =>
        allocTasks startMin endMin buffer idOf ts
          (insertBlock (mkBlock (idOf gen) t t.title s e) blocks) (gen + 1)
    else
      let p := placeSplit startMin endMin buffer idOf t dur dur dur blocks gen
      let r := allocTasks startMin endMin buffer idOf ts p.1 p.2.2
      (r.1, (if 0 < p.2.1 then [(t, p.2.1)] else []) ++ r.2.1, r.2.2)

/-- `getLunchBlock` (script.js:674-681): `none` or an already-parsed window,
rejected when the end is not after the start. -/
def getLunchBlock (st : Settings) : Option (Nat × Nat) :=
  match st.lunch with
  | none => none
  | some (s, e) => if e ≤ s then none else some (s, e)

/-- The fixed lunch block pushed at script.js:725-738. -/
def lunchBlock (p : Nat × Nat) : Block :=
  { id := "lunch", taskId := "lunch", title := "休憩",
    startMin := p.1, endMin := p.2, fixed := true, done := false }

/-- The output of `buildSchedule`: the persisted day schedule and the
unplaced list. -/
structure BuildResult where
  placed : List Block
  unplaced : List (Task × Nat)
deriving DecidableEq

/-- `buildSchedule` (script.js:719-829): seed the day with the fixed lunch
block, rank the pending (not-done) tasks (`tasksToSchedule`,
script.js:684-690), and allocate first-fit. -/
def buildSchedule (st : Settings) (idOf : Nat → String) (tasks : List Task) :
    BuildResult :=
  let base : List Block :=
    match getLunchBlock st with
    | none => []
    | some p => [lunchBlock p]
  let ranked := sortTasks st.strategy (tasks.filter (fun t => !t.done))
  let r := allocTasks st.dayStart st.dayEnd st.buffer idOf ranked base 0
  { placed := r.1, unplaced := r.2.1 }

/-- Replace the first element satisfying `p` (the JavaScript pattern of
mutating the object returned by `find`/`findIndex`). -/
def updateFirst (p : α → Bool) (f : α → α) : List α → List α
  | [] => []
  | x :: xs => if p x then f x :: xs else x :: updateFirst p f xs

/-- `hasOverlap` (script.js:1087-1090): some other block (any kind) strictly
overlaps the candidate range `[s, e)`; no buffer is involved. -/
def hasOverlap (sched : List Block) (bid : String) (s e : Nat) : Bool :=
  (sortByStart sched).any fun b =>
    b.id != bid && !(decide (e ≤ b.startMin) || decide (b.endMin ≤ s))

/-- `moveBlock` (script.js:1092-1111) acting on the stored day schedule:
missing id or fixed block or overlap leaves the store unchanged; otherwise
the block's range is replaced and the list re-sorted. -/
def moveBlock (sched : List Block) (bid : String) (s e : Nat) : List Block :=
  let blocks := sortByStart sched
  match blocks.find? (fun b => b.id == bid) with
  | none => sched
  | some b =>
    if b.fixed then sched
    else if hasOverlap sched bid s e then sched
    else
      sortByStart (updateFirst (fun x => x.id == bid)
        (fun x => { x with startMin := s, endMin := e }) blocks)

/-- `toggleBlockDone` (script.js:1113-1129): flip the `done` flag of the
first block with the given id (no fixed-check), then propagate "all blocks
of the task done" to the task list. -/
def toggleBlockDone (sched : List Block) (tasks : List Task) (bid : String) :
    List Block × List Task :=
  let blocks := sortByStart sched
  match blocks.find? (fun b => b.id == bid) with
  | none => (sched, tasks)
  | some b =>
    let blocks' := updateFirst (fun x => x.id == bid)
      (fun x => { x with done := !x.done }) blocks
    if b.taskId != "" && b.taskId != "lunch" then
      let related := blocks'.filter (fun x => x.taskId == b.taskId)
      let allDone := !related.isEmpty && related.all (fun x => x.done)
      (blocks',
        updateFirst (fun t => t.id == b.taskId)
          (fun t => { t with done := allDone }) tasks)
    else
      (blocks', tasks)

/-- `removeBlock` (script.js:1131-1138): delete the block with the given id,
refusing when it is absent or fixed. -/
def removeBlock (sched : List Block) (bid : String) : List Block :=
  let blocks := sortByStart sched
  match blocks.find? (fun b => b.id == bid) with
  | none => sched
  | some b =>
    if b.fixed then sched
    else blocks.filter (fun x => x.id != bid)

end AutoScheduler

namespace AutoScheduler

/-! ### Properties of the gap scan -/

/-- A candidate start position for a block of `n` minutes: at or after the
day start, and clear of every listed block by the buffer when it comes
after one. -/
def validPos (startMin buffer n : Nat) (L : List Block) (p : Nat) : Prop :=
  startMin ≤ p ∧ ∀ b ∈ L, p + n ≤ b.startMin ∨ b.endMin + buffer ≤ p

theorem findGapAux_shape {buffer n endMin : Nat} :
    ∀ {bs : List Block} {cur s e : Nat},
      findGapAux buffer n endMin cur bs = some (s, e) → e = s + n ∧ cur ≤ s := by
  intro bs
  induction bs with
  | nil =>
    intro cur s e h
    rw [findGapAux] at h
    split at h
    · simp only [Option.some.injEq, Prod.mk.injEq] at h
      omega
    · exact absurd h (by simp)
  | cons b bs ih =>
    intro cur s e h
    rw [findGapAux] at h
    split at h
    · simp only [Option.some.injEq, Prod.mk.injEq] at h
      omega
    · have := ih h
      constructor
      · exact this.1
      · exact le_trans (le_max_left _ _) this.2

theorem findGapAux_disj {buffer n endMin : Nat} :
    ∀ {bs : List Block} {cur s e : Nat},
      List.Pairwise bleStart bs →
      findGapAux buffer n endMin cur bs = some (s, e) →
      ∀ b ∈ bs, s + n ≤ b.startMin ∨ b.endMin + buffer ≤ s := by
  intro bs
  induction bs with
  | nil => intro cur s e _ _ b hb; exact absurd hb (by simp)
  | cons b bs ih =>
    intro cur s e hp h c hc
    have hpb := List.pairwise_cons.mp hp
    rw [findGapAux] at h
    split at h
    · simp only [Option.some.injEq, Prod.mk.injEq] at h
      obtain ⟨rfl, rfl⟩ := h
      rcases List.mem_cons.mp hc with rfl | hc
      · left; assumption
      · left; exact le_trans (by assumption) (hpb.1 c hc)
    · rcases List.mem_cons.mp hc with rfl | hc
      · right
        have := (findGapAux_shape h).2
        exact le_trans (le_max_right _ _) this
      · exact ih hpb.2 h c hc

theorem findGapAux_tight {buffer n endMin : Nat} :
    ∀ {bs : List Block} {cur s e : Nat},
      findGapAux buffer n endMin cur bs = some (s, e) →
      s = cur ∨ ∃ b ∈ bs, s = b.endMin + buffer := by
  intro bs
  induction bs with
  | nil =>
    intro cur s e h
    rw [findGapAux] at h
    split at h
    · simp only [Option.some.injEq, Prod.mk.injEq] at h
      left; omega
    · exact absurd h (by simp)
  | cons b bs ih =>
    intro cur s e h
    rw [findGapAux] at h
    split at h
    · simp only [Option.some.injEq, Prod.mk.injEq] at h
      left; omega
    · rcases ih h with hs | ⟨c, hc, hs⟩
      · rcases max_choice cur (b.endMin + buffer) with hm | hm
        · left; omega
        · right; exact ⟨b, by simp, by omega⟩
      · right; exact ⟨c, by simp [hc], hs⟩

theorem findGapAux_min {buffer n endMin : Nat} :
    ∀ {bs : List Block} {cur s e : Nat},
      findGapAux buffer n endMin cur bs = some (s, e) →
      ∀ p, cur ≤ p → (∀ b ∈ bs, p + n ≤ b.startMin ∨ b.endMin + buffer ≤ p) →
      s ≤ p := by
  intro bs
  induction bs with
  | nil =>
    intro cur s e h p hp _
    rw [findGapAux] at h
    split at h
    · simp only [Option.some.injEq, Prod.mk.injEq] at h
      omega
    · exact absurd h (by simp)
  | cons b bs ih =>
    intro cur s e h p hp hval
    rw [findGapAux] at h
    split at h
    · simp only [Option.some.injEq, Prod.mk.injEq] at h
      omega
    · rename_i hlt
      have hb := hval b (by simp)
      rcases hb with hb | hb
      · omega
      · exact ih h p (by omega) (fun c hc => hval c (by simp [hc]))

theorem findGapAux_none {buffer n endMin : Nat} :
    ∀ {bs : List Block} {cur : Nat},
      findGapAux buffer n endMin cur bs = none →
      ∀ p, cur ≤ p → p + n ≤ endMin →
      (∀ b ∈ bs, p + n ≤ b.startMin ∨ b.endMin + buffer ≤ p) → False := by
  intro bs
  induction bs with
  | nil =>
    intro cur h p hp hpe _
    rw [findGapAux] at h
    split at h
    · exact absurd h (by simp)
    · omega
  | cons b bs ih =>
    intro cur h p hp hpe hval
    rw [findGapAux] at h
    split at h
    · exact absurd h (by simp)
    · rename_i hlt
      have hb := hval b (by simp)
      rcases hb with hb | hb
      · omega
      · exact ih h p (by omega) hpe (fun c hc => hval c (by simp [hc]))

theorem findGapAux_within {buffer n endMin : Nat} :
    ∀ {bs : List Block} {cur s e : Nat},
      (∀ b ∈ bs, b.startMin ≤ b.endMin ∧ b.endMin ≤ endMin) →
      findGapAux buffer n endMin cur bs = some (s, e) →
      s + n ≤ endMin := by
  intro bs
  induction bs with
  | nil =>
    intro cur s e _ h
    rw [findGapAux] at h
    split at h
    · simp only [Option.some.injEq, Prod.mk.injEq] at h
      omega
    · exact absurd h (by simp)
  | cons b bs ih =>
    intro cur s e hwf h
    rw [findGapAux] at h
    split at h
    · simp only [Option.some.injEq, Prod.mk.injEq] at h
      have := hwf b (by simp)
      omega
    · exact ih (fun c hc => hwf c (by simp [hc])) h

theorem mem_sortByStart {b : Block} {L : List Block} : b ∈ sortByStart L ↔ b ∈ L := by
  unfold sortByStart
  exact List.mem_insertionSort bleStart

theorem sortByStart_sorted (L : List Block) : List.Pairwise bleStart (sortByStart L) :=
  List.sorted_insertionSort bleStart L

theorem sortByStart_perm (L : List Block) : (sortByStart L).Perm L :=
  List.perm_insertionSort bleStart L

theorem findGap_shape {st en buf : Nat} {L : List Block} {n s e : Nat}
    (h : findGap st en buf L n = some (s, e)) : e = s + n ∧ st ≤ s :=
  findGapAux_shape h

theorem findGap_disj {st en buf : Nat} {L : List Block} {n s e : Nat}
    (h : findGap st en buf L n = some (s, e)) :
    ∀ b ∈ L, s + n ≤ b.startMin ∨ b.endMin + buf ≤ s := by
  intro b hb
  exact findGapAux_disj (sortByStart_sorted L) h b (mem_sortByStart.mpr hb)

theorem findGap_tight {st en buf : Nat} {L : List Block} {n s e : Nat}
    (h : findGap st en buf L n = some (s, e)) :
    s = st ∨ ∃ b ∈ L, s = b.endMin + buf := by
  rcases findGapAux_tight h with hs | ⟨b, hb, hs⟩
  · exact Or.inl hs
  · exact Or.inr ⟨b, mem_sortByStart.mp hb, hs⟩

theorem findGap_min {st en buf : Nat} {L : List Block} {n s e p : Nat}
    (h : findGap st en buf L n = some (s, e)) (hp : validPos st buf n L p) :
    s ≤ p :=
  findGapAux_min h p hp.1 (fun b hb => hp.2 b (mem_sortByStart.mp hb))

theorem findGap_none {st en buf : Nat} {L : List Block} {n p : Nat}
    (h : findGap st en buf L n = none) (hp : validPos st buf n L p)
    (hpe : p + n ≤ en) : False :=
  findGapAux_none h p hp.1 hpe (fun b hb => hp.2 b (mem_sortByStart.mp hb))

theorem findGap_within {st en buf : Nat} {L : List Block} {n s e : Nat}
    (hwf : ∀ b ∈ L, b.startMin ≤ b.endMin ∧ b.endMin ≤ en)
    (h : findGap st en buf L n = some (s, e)) : s + n ≤ en :=
  findGapAux_within (fun b hb => hwf b (mem_sortByStart.mp hb)) h

theorem findGap_isValid {st en buf : Nat} {L : List Block} {n s e : Nat}
    (h : findGap st en buf L n = some (s, e)) : validPos st buf n L s :=
  ⟨(findGap_shape h).2, findGap_disj h⟩

end AutoScheduler

namespace AutoScheduler

/-! ### The schedule invariant maintained by the allocation loop -/

/-- Invariant of the growing `dayBlocks` list: every block is non-empty, the
blocks are pairwise disjoint, and every non-fixed (i.e. allocator-placed)
block starts at the day start or exactly `buffer` minutes after the end of
some earlier-starting block, and no earlier-starting block ends within
`buffer` minutes of it. -/
def schedINV (dayStart buffer : Nat) (L : List Block) : Prop :=
  (∀ b ∈ L, b.startMin < b.endMin) ∧
  List.Pairwise (fun a b => a.endMin ≤ b.startMin ∨ b.endMin ≤ a.startMin) L ∧
  (∀ b ∈ L, b.fixed = false →
    dayStart ≤ b.startMin ∧
    (∀ a ∈ L, a.startMin < b.startMin → a.endMin + buffer ≤ b.startMin) ∧
    (b.startMin = dayStart ∨ ∃ a ∈ L, a.startMin < b.startMin ∧ b.startMin = a.endMin + buffer))

theorem schedINV_perm {ds buf : Nat} {L₁ L₂ : List Block}
    (hp : L₁.Perm L₂) (h : schedINV ds buf L₁) : schedINV ds buf L₂ := by
  obtain ⟨h1, h2, h3⟩ := h
  refine ⟨fun b hb => h1 b (hp.mem_iff.mpr hb), ?_, ?_⟩
  · exact (hp.pairwise_iff (fun {a b} hab => hab.symm)).mp h2
  · intro b hb hbf
    obtain ⟨hds, hall, htight⟩ := h3 b (hp.mem_iff.mpr hb) hbf
    refine ⟨hds, fun a ha => hall a (hp.mem_iff.mpr ha), ?_⟩
    rcases htight with h | ⟨a, ha, hlt, heq⟩
    · exact Or.inl h
    · exact Or.inr ⟨a, hp.mem_iff.mp ha, hlt, heq⟩

theorem schedINV_insert {ds en buf : Nat} {L : List Block} {n s e : Nat} {blk : Block}
    (hInv : schedINV ds buf L)
    (hgap : findGap ds en buf L n = some (s, e))
    (hn : 0 < n)
    (hs : blk.startMin = s) (he : blk.endMin = s + n) (hf : blk.fixed = false) :
    schedINV ds buf (insertBlock blk L) := by
  obtain ⟨hWF, hDisj, hNF⟩ := hInv
  have hdisj := findGap_disj hgap
  have hge : ds ≤ s := (findGap_shape hgap).2
  have htight := findGap_tight hgap
  have hcons : schedINV ds buf (blk :: L) := by
    refine ⟨?_, ?_, ?_⟩
    · intro b hb
      rcases List.mem_cons.mp hb with rfl | hb
      · omega
      · exact hWF b hb
    · refine List.pairwise_cons.mpr ⟨?_, hDisj⟩
      intro b hb
      rcases hdisj b hb with h | h
      · left; omega
      · right; omega
    · intro b hb hbf
      rcases List.mem_cons.mp hb with rfl | hb
      · refine ⟨by omega, ?_, ?_⟩
        · intro a ha hlt
          rcases List.mem_cons.mp ha with rfl | ha
          · omega
          · rcases hdisj a ha with h | h
            · omega
            · omega
        · rcases htight with h | ⟨a, ha, heq⟩
          · left; omega
          · right
            refine ⟨a, List.mem_cons_of_mem _ ha, ?_, by omega⟩
            have := hWF a ha
            omega
      · obtain ⟨hds, hall, htb⟩ := hNF b hb hbf
        refine ⟨hds, ?_, ?_⟩
        · intro a ha hlt
          rcases List.mem_cons.mp ha with rfl | ha
          · rw [hs] at hlt
            rw [he]
            rcases htb with hb0 | ⟨a₀, ha₀, ha₀lt, heq⟩
            · omega
            · rcases hdisj a₀ ha₀ with h | h
              · have := hWF a₀ ha₀
                omega
              · omega
          · exact hall a ha hlt
        · rcases htb with hb0 | ⟨a₀, ha₀, ha₀lt, heq⟩
          · exact Or.inl hb0
          · exact Or.inr ⟨a₀, List.mem_cons_of_mem _ ha₀, ha₀lt, heq⟩
  refine schedINV_perm ?_ hcons
  exact ((List.perm_append_singleton blk L).symm.trans (sortByStart_perm (L ++ [blk])).symm)

theorem chunkOf_pos {r : Nat} (h : 0 < r) : 0 < chunkOf r := by
  unfold chunkOf
  split
  · omega
  · split
    · omega
    · split
      · omega
      · omega

theorem chunkOf_le (r : Nat) : chunkOf r ≤ r := by
  unfold chunkOf
  split
  · omega
  · split
    · omega
    · split
      · omega
      · omega

theorem placeSplit_INV {ds en buf : Nat} {idOf : Nat → String} {t : Task} {dur : Nat} :
    ∀ (fuel remaining : Nat) (blocks : List Block) (gen : Nat),
      schedINV ds buf blocks →
      schedINV ds buf (placeSplit ds en buf idOf t dur fuel remaining blocks gen).1 := by
  intro fuel
  induction fuel with
  | zero =>
    intro remaining blocks gen h
    cases remaining with
    | zero => exact h
    | succ r => exact h
  | succ fuel ih =>
    intro remaining blocks gen h
    cases remaining with
    | zero => exact h
    | succ r =>
      rw [placeSplit]
      cases hg : findGap ds en buf blocks (chunkOf (r + 1)) with
      | none => exact h
      | some g =>
        obtain ⟨s, e⟩ := g
        simp only
        exact ih _ _ _
          (schedINV_insert h hg (chunkOf_pos (Nat.succ_pos r)) rfl
            ((findGap_shape hg).1 ▸ rfl) rfl)

theorem allocTasks_INV {ds en buf : Nat} {idOf : Nat → String} :
    ∀ (ts : List Task) (blocks : List Block) (gen : Nat),
      schedINV ds buf blocks →
      schedINV ds buf (allocTasks ds en buf idOf ts blocks gen).1 := by
  intro ts
  induction ts with
  | nil => intro blocks gen h; exact h
  | cons t ts ih =>
    intro blocks gen h
    rw [allocTasks]
    split
    · cases hg : findGap ds en buf blocks (normDur t) with
      | none => exact ih blocks gen h
      | some g =>
        obtain ⟨s, e⟩ := g
        simp only
        refine ih _ _ ?_
        refine schedINV_insert h hg ?_ rfl ((findGap_shape hg).1 ▸ rfl) rfl
        unfold normDur
        omega
    · exact ih _ _ (placeSplit_INV _ _ _ _ h)

theorem getLunchBlock_wf {st : Settings} {p : Nat × Nat}
    (h : getLunchBlock st = some p) : p.1 < p.2 := by
  unfold getLunchBlock at h
  cases hl : st.lunch with
  | none => rw [hl] at h; exact absurd h (by simp)
  | some q =>
    rw [hl] at h
    obtain ⟨a, b⟩ := q
    simp only at h
    split at h
    · exact absurd h (by simp)
    · simp only [Option.some.injEq] at h
      subst h
      simp only
      omega

theorem buildSchedule_INV (st : Settings) (idOf : Nat → String) (tasks : List Task) :
    schedINV st.dayStart st.buffer (buildSchedule st idOf tasks).placed := by
  unfold buildSchedule
  simp only
  apply allocTasks_INV
  cases hl : getLunchBlock st with
  | none => exact ⟨by simp, by simp, by simp⟩
  | some p =>
    refine ⟨?_, ?_, ?_⟩
    · intro b hb
      rcases List.mem_cons.mp hb with rfl | hb
      · exact getLunchBlock_wf hl
      · exact absurd hb (by simp)
    · simp
    · intro b hb hbf
      rcases List.mem_cons.mp hb with rfl | hb
      · exact absurd hbf (by simp [lunchBlock])
      · exact absurd hb (by simp)

end AutoScheduler

namespace AutoScheduler

/-! ### Accounting: placed minutes, block counts, unplaced remainders -/

/-- Duration in minutes of a block. -/
def durOf (b : Block) : Nat := b.endMin - b.startMin

/-- Total placed minutes of the blocks referencing task id `tid`. -/
def blocksFor (tid : String) (l : List Block) : Nat :=
  ((l.filter fun b => b.taskId == tid).map durOf).sum

/-- Number of blocks referencing task id `tid`. -/
def countFor (tid : String) (l : List Block) : Nat :=
  (l.filter fun b => b.taskId == tid).length

/-- Total unplaced remainder recorded for task id `tid` (zero when the task
has no unplaced entry). -/
def remainderFor (tid : String) (up : List (Task × Nat)) : Nat :=
  ((up.filter fun e => e.1.id == tid).map fun e => e.2).sum

theorem blocksFor_perm {tid : String} {l₁ l₂ : List Block} (h : l₁.Perm l₂) :
    blocksFor tid l₁ = blocksFor tid l₂ := by
  unfold blocksFor
  exact ((h.filter _).map durOf).sum_eq

theorem countFor_perm {tid : String} {l₁ l₂ : List Block} (h : l₁.Perm l₂) :
    countFor tid l₁ = countFor tid l₂ := by
  unfold countFor
  exact (h.filter _).length_eq

theorem blocksFor_cons {tid : String} {blk : Block} {l : List Block} :
    blocksFor tid (blk :: l) =
      (if blk.taskId = tid then blk.endMin - blk.startMin else 0) + blocksFor tid l := by
  unfold blocksFor
  by_cases h : blk.taskId = tid
  · simp [List.filter_cons, h, durOf]
  · simp [List.filter_cons, h]

theorem countFor_cons {tid : String} {blk : Block} {l : List Block} :
    countFor tid (blk :: l) =
      (if blk.taskId = tid then 1 else 0) + countFor tid l := by
  unfold countFor
  by_cases h : blk.taskId = tid
  · simp [List.filter_cons, h, Nat.add_comm]
  · simp [List.filter_cons, h]

theorem blocksFor_insertBlock {tid : String} {blk : Block} {l : List Block} :
    blocksFor tid (insertBlock blk l) =
      (if blk.taskId = tid then blk.endMin - blk.startMin else 0) + blocksFor tid l := by
  unfold insertBlock
  rw [blocksFor_perm ((sortByStart_perm (l ++ [blk])).trans (List.perm_append_singleton blk l)),
    blocksFor_cons]

theorem countFor_insertBlock {tid : String} {blk : Block} {l : List Block} :
    countFor tid (insertBlock blk l) =
      (if blk.taskId = tid then 1 else 0) + countFor tid l := by
  unfold insertBlock
  rw [countFor_perm ((sortByStart_perm (l ++ [blk])).trans (List.perm_append_singleton blk l)),
    countFor_cons]

theorem remainderFor_cons {tid : String} {e : Task × Nat} {up : List (Task × Nat)} :
    remainderFor tid (e :: up) =
      (if e.1.id = tid then e.2 else 0) + remainderFor tid up := by
  unfold remainderFor
  by_cases h : e.1.id = tid
  · simp [List.filter_cons, h]
  · simp [List.filter_cons, h]

theorem chunkOf_ge30 {r : Nat} (h : 30 ≤ r) : 30 ≤ chunkOf r := by
  unfold chunkOf
  repeat' split
  all_goals omega

theorem chunkOf_small {r : Nat} (h : r < 30) : chunkOf r = r := by
  unfold chunkOf
  repeat' split
  all_goals omega

theorem placeSplit_account {ds en buf : Nat} {idOf : Nat → String} {t : Task} {dur : Nat} :
    ∀ (fuel remaining : Nat) (blocks : List Block) (gen : Nat),
      blocksFor t.id (placeSplit ds en buf idOf t dur fuel remaining blocks gen).1 +
        (placeSplit ds en buf idOf t dur fuel remaining blocks gen).2.1 =
      blocksFor t.id blocks + remaining := by
  intro fuel
  induction fuel with
  | zero =>
    intro remaining blocks gen
    cases remaining with
    | zero => simp [placeSplit]
    | succ r => simp [placeSplit]
  | succ fuel ih =>
    intro remaining blocks gen
    cases remaining with
    | zero => simp [placeSplit]
    | succ r =>
      rw [placeSplit]
      cases hg : findGap ds en buf blocks (chunkOf (r + 1)) with
      | none => simp
      | some g =>
        obtain ⟨s, e⟩ := g
        simp only
        rw [ih]
        rw [blocksFor_insertBlock]
        have he : e = s + chunkOf (r + 1) := (findGap_shape hg).1
        have hle : chunkOf (r + 1) ≤ r + 1 := chunkOf_le (r + 1)
        simp only [mkBlock, eq_self_iff_true, if_true]
        omega

theorem placeSplit_other {ds en buf : Nat} {idOf : Nat → String} {t : Task} {dur : Nat}
    {tid : String} (hne : t.id ≠ tid) :
    ∀ (fuel remaining : Nat) (blocks : List Block) (gen : Nat),
      blocksFor tid (placeSplit ds en buf idOf t dur fuel remaining blocks gen).1 =
        blocksFor tid blocks ∧
      countFor tid (placeSplit ds en buf idOf t dur fuel remaining blocks gen).1 =
        countFor tid blocks := by
  intro fuel
  induction fuel with
  | zero =>
    intro remaining blocks gen
    cases remaining with
    | zero => simp [placeSplit]
    | succ r => simp [placeSplit]
  | succ fuel ih =>
    intro remaining blocks gen
    cases remaining with
    | zero => simp [placeSplit]
    | succ r =>
      rw [placeSplit]
      cases hg : findGap ds en buf blocks (chunkOf (r + 1)) with
      | none => simp
      | some g =>
        obtain ⟨s, e⟩ := g
        simp only
        rw [(ih _ _ _).1, (ih _ _ _).2, blocksFor_insertBlock, countFor_insertBlock]
        simp [mkBlock, hne]

theorem placeSplit_count {ds en buf : Nat} {idOf : Nat → String} {t : Task} {dur : Nat} :
    ∀ (fuel remaining : Nat) (blocks : List Block) (gen : Nat),
      countFor t.id (placeSplit ds en buf idOf t dur fuel remaining blocks gen).1 ≤
        countFor t.id blocks + (remaining + 29) / 30 := by
  intro fuel
  induction fuel with
  | zero =>
    intro remaining blocks gen
    cases remaining with
    | zero => simp [placeSplit]
    | succ r => simp [placeSplit]
  | succ fuel ih =>
    intro remaining blocks gen
    cases remaining with
    | zero => simp [placeSplit]
    | succ r =>
      rw [placeSplit]
      cases hg : findGap ds en buf blocks (chunkOf (r + 1)) with
      | none => simp
      | some g =>
        obtain ⟨s, e⟩ := g
        simp only
        refine le_trans (ih _ _ _) ?_
        rw [countFor_insertBlock]
        simp only [mkBlock, eq_self_iff_true, if_true]
        have hle : chunkOf (r + 1) ≤ r + 1 := chunkOf_le (r + 1)
        by_cases hr : 30 ≤ r + 1
        · have h30 : 30 ≤ chunkOf (r + 1) := chunkOf_ge30 hr
          omega
        · have hsm : chunkOf (r + 1) = r + 1 := chunkOf_small (by omega)
          omega

end AutoScheduler

namespace AutoScheduler

theorem placeSplit_leftover_no_gap {ds en buf : Nat} {idOf : Nat → String} {t : Task}
    {dur : Nat} :
    ∀ (fuel remaining : Nat) (blocks : List Block) (gen : Nat),
      remaining ≤ fuel →
      0 < (placeSplit ds en buf idOf t dur fuel remaining blocks gen).2.1 →
      findGap ds en buf (placeSplit ds en buf idOf t dur fuel remaining blocks gen).1
        (chunkOf (placeSplit ds en buf idOf t dur fuel remaining blocks gen).2.1) = none := by
  intro fuel
  induction fuel with
  | zero =>
    intro remaining blocks gen hle hpos
    cases remaining with
    | zero => simp [placeSplit] at hpos
    | succ r => omega
  | succ fuel ih =>
    intro remaining blocks gen hle hpos
    cases remaining with
    | zero => simp [placeSplit] at hpos
    | succ r =>
      cases hg : findGap ds en buf blocks (chunkOf (r + 1)) with
      | none =>
        simp only [placeSplit, hg]
      | some g =>
        obtain ⟨s, e⟩ := g
        simp only [placeSplit, hg] at hpos ⊢
        have hc : 0 < chunkOf (r + 1) := chunkOf_pos (by omega)
        exact ih _ _ _ (by omega) hpos

theorem allocTasks_frozen {ds en buf : Nat} {idOf : Nat → String} {tid : String} :
    ∀ (ts : List Task) (blocks : List Block) (gen : Nat),
      (∀ t' ∈ ts, t'.id ≠ tid) →
      blocksFor tid (allocTasks ds en buf idOf ts blocks gen).1 = blocksFor tid blocks ∧
      remainderFor tid (allocTasks ds en buf idOf ts blocks gen).2.1 = 0 ∧
      countFor tid (allocTasks ds en buf idOf ts blocks gen).1 = countFor tid blocks := by
  intro ts
  induction ts with
  | nil =>
    intro blocks gen _
    refine ⟨rfl, ?_, rfl⟩
    simp [remainderFor, allocTasks]
  | cons t ts ih =>
    intro blocks gen hne
    have hthead : t.id ≠ tid := hne t (by simp)
    have htail : ∀ t' ∈ ts, t'.id ≠ tid := fun t' h => hne t' (by simp [h])
    rw [allocTasks]
    split
    · cases hg : findGap ds en buf blocks (normDur t) with
      | none =>
        obtain ⟨h1, h2, h3⟩ := ih blocks gen htail
        refine ⟨h1, ?_, h3⟩
        rw [remainderFor_cons]
        simp [hthead, h2]
      | some g =>
        obtain ⟨s, e⟩ := g
        simp only
        obtain ⟨h1, h2, h3⟩ := ih _ (gen + 1) htail
        refine ⟨?_, h2, ?_⟩
        · rw [h1, blocksFor_insertBlock]
          simp [mkBlock, hthead]
        · rw [h3, countFor_insertBlock]
          simp [mkBlock, hthead]
    · simp only
      obtain ⟨h1, h2, h3⟩ :=
        ih (placeSplit ds en buf idOf t (normDur t) (normDur t) (normDur t) blocks gen).1
          (placeSplit ds en buf idOf t (normDur t) (normDur t) (normDur t) blocks gen).2.2 htail
      obtain ⟨ho1, ho2⟩ := @placeSplit_other ds en buf idOf t (normDur t) tid hthead
        (normDur t) (normDur t) blocks gen
      refine ⟨by rw [h1, ho1], ?_, by rw [h3, ho2]⟩
      split
      · rw [List.singleton_append, remainderFor_cons]
        simp [hthead, h2]
      · simpa using h2

theorem allocTasks_account {ds en buf : Nat} {idOf : Nat → String} {t : Task} :
    ∀ (ts : List Task) (blocks : List Block) (gen : Nat),
      t ∈ ts →
      List.Pairwise (fun a b : Task => a.id ≠ b.id) ts →
      blocksFor t.id (allocTasks ds en buf idOf ts blocks gen).1 +
        remainderFor t.id (allocTasks ds en buf idOf ts blocks gen).2.1 =
      blocksFor t.id blocks + normDur t := by
  intro ts
  induction ts with
  | nil => intro blocks gen ht; exact absurd ht (by simp)
  | cons t' ts ih =>
    intro blocks gen ht hp
    have hpc := List.pairwise_cons.mp hp
    rcases List.mem_cons.mp ht with rfl | ht
    · have htail : ∀ t'' ∈ ts, t''.id ≠ t.id := fun t'' h => Ne.symm (hpc.1 t'' h)
      rw [allocTasks]
      split
      · cases hg : findGap ds en buf blocks (normDur t) with
        | none =>
          obtain ⟨h1, h2, _⟩ := allocTasks_frozen ts blocks gen htail
          rw [h1, remainderFor_cons]
          simp [h2]
        | some g =>
          obtain ⟨s, e⟩ := g
          simp only
          obtain ⟨h1, h2, _⟩ := allocTasks_frozen ts _ (gen + 1) htail
          rw [h1, h2, blocksFor_insertBlock]
          have he : e = s + normDur t := (findGap_shape hg).1
          simp only [mkBlock, eq_self_iff_true, if_true]
          omega
      · simp only
        obtain ⟨h1, h2, _⟩ :=
          allocTasks_frozen ts
            (placeSplit ds en buf idOf t (normDur t) (normDur t) (normDur t) blocks gen).1
            (placeSplit ds en buf idOf t (normDur t) (normDur t) (normDur t) blocks gen).2.2 htail
        have hacc := @placeSplit_account ds en buf idOf t (normDur t)
          (normDur t) (normDur t) blocks gen
        rw [h1]
        split
        · rw [List.singleton_append, remainderFor_cons]
          simp only [eq_self_iff_true, if_true, h2]
          omega
        · rename_i hz
          simp only [List.nil_append, h2]
          omega
    · have hne : t'.id ≠ t.id := hpc.1 t ht
      rw [allocTasks]
      split
      · cases hg : findGap ds en buf blocks (normDur t') with
        | none =>
          rw [remainderFor_cons]
          simp only [hne, if_false]
          rw [Nat.zero_add]
          exact ih blocks gen ht hpc.2
        | some g =>
          obtain ⟨s, e⟩ := g
          simp only
          rw [ih _ (gen + 1) ht hpc.2, blocksFor_insertBlock]
          simp [mkBlock, hne]
      · simp only
        obtain ⟨ho1, _⟩ := @placeSplit_other ds en buf idOf t' (normDur t') t.id hne
          (normDur t') (normDur t') blocks gen
        rw [← ho1]
        split
        · rw [List.singleton_append, remainderFor_cons]
          simp only [hne, if_false]
          rw [Nat.zero_add]
          exact ih _ _ ht hpc.2
        · simpa using ih _ _ ht hpc.2

theorem allocTasks_count {ds en buf : Nat} {idOf : Nat → String} {t : Task} :
    ∀ (ts : List Task) (blocks : List Block) (gen : Nat),
      t ∈ ts →
      List.Pairwise (fun a b : Task => a.id ≠ b.id) ts →
      countFor t.id (allocTasks ds en buf idOf ts blocks gen).1 ≤
        countFor t.id blocks + (normDur t + 29) / 30 := by
  intro ts
  induction ts with
  | nil => intro blocks gen ht; exact absurd ht (by simp)
  | cons t' ts ih =>
    intro blocks gen ht hp
    have hpc := List.pairwise_cons.mp hp
    rcases List.mem_cons.mp ht with rfl | ht
    · have htail : ∀ t'' ∈ ts, t''.id ≠ t.id := fun t'' h => Ne.symm (hpc.1 t'' h)
      rw [allocTasks]
      split
      · cases hg : findGap ds en buf blocks (normDur t) with
        | none =>
          obtain ⟨_, _, h3⟩ := allocTasks_frozen ts blocks gen htail
          rw [h3]
          omega
        | some g =>
          obtain ⟨s, e⟩ := g
          simp only
          obtain ⟨_, _, h3⟩ := allocTasks_frozen ts _ (gen + 1) htail
          rw [h3, countFor_insertBlock]
          simp only [mkBlock, eq_self_iff_true, if_true]
          have h5 : 5 ≤ normDur t := le_max_left _ _
          omega
      · simp only
        obtain ⟨_, _, h3⟩ :=
          allocTasks_frozen ts
            (placeSplit ds en buf idOf t (normDur t) (normDur t) (normDur t) blocks gen).1
            (placeSplit ds en buf idOf t (normDur t) (normDur t) (normDur t) blocks gen).2.2 htail
        rw [h3]
        exact placeSplit_count (normDur t) (normDur t) blocks gen
    · have hne : t'.id ≠ t.id := hpc.1 t ht
      rw [allocTasks]
      split
      · cases hg : findGap ds en buf blocks (normDur t') with
        | none => exact ih blocks gen ht hpc.2
        | some g =>
          obtain ⟨s, e⟩ := g
          simp only
          refine le_trans (ih _ (gen + 1) ht hpc.2) ?_
          rw [countFor_insertBlock]
          simp [mkBlock, hne]
      · simp only
        obtain ⟨_, ho2⟩ := @placeSplit_other ds en buf idOf t' (normDur t') t.id hne
          (normDur t') (normDur t') blocks gen
        refine le_trans (ih _ _ ht hpc.2) ?_
        rw [ho2]

end AutoScheduler

namespace AutoScheduler

/-! ### Day bounds -/

/-- Every block lies inside the day window and is non-empty. -/
def dayOK (ds en : Nat) (L : List Block) : Prop :=
  ∀ b ∈ L, ds ≤ b.startMin ∧ b.startMin < b.endMin ∧ b.endMin ≤ en

theorem mem_insertBlock {b blk : Block} {L : List Block} :
    b ∈ insertBlock blk L ↔ b = blk ∨ b ∈ L := by
  unfold insertBlock
  rw [mem_sortByStart, List.mem_append, List.mem_singleton]
  tauto

theorem dayOK_insert {ds en buf : Nat} {L : List Block} {n s e : Nat} {blk : Block}
    (h : dayOK ds en L) (hgap : findGap ds en buf L n = some (s, e)) (hn : 0 < n)
    (hs : blk.startMin = s) (he : blk.endMin = s + n) :
    dayOK ds en (insertBlock blk L) := by
  intro b hb
  rcases mem_insertBlock.mp hb with rfl | hb
  · have h1 := (findGap_shape hgap).2
    have h2 := findGap_within
      (fun c hc => ⟨le_of_lt (h c hc).2.1, (h c hc).2.2⟩) hgap
    exact ⟨by omega, by omega, by omega⟩
  · exact h b hb

theorem placeSplit_dayOK {ds en buf : Nat} {idOf : Nat → String} {t : Task} {dur : Nat} :
    ∀ (fuel remaining : Nat) (blocks : List Block) (gen : Nat),
      dayOK ds en blocks →
      dayOK ds en (placeSplit ds en buf idOf t dur fuel remaining blocks gen).1 := by
  intro fuel
  induction fuel with
  | zero =>
    intro remaining blocks gen h
    cases remaining with
    | zero => exact h
    | succ r => exact h
  | succ fuel ih =>
    intro remaining blocks gen h
    cases remaining with
    | zero => exact h
    | succ r =>
      cases hg : findGap ds en buf blocks (chunkOf (r + 1)) with
      | none => simpa [placeSplit, hg] using h
      | some g =>
        obtain ⟨s, e⟩ := g
        simp only [placeSplit, hg]
        exact ih _ _ _
          (dayOK_insert h hg (chunkOf_pos (by omega)) rfl ((findGap_shape hg).1 ▸ rfl))

theorem allocTasks_dayOK {ds en buf : Nat} {idOf : Nat → String} :
    ∀ (ts : List Task) (blocks : List Block) (gen : Nat),
      dayOK ds en blocks →
      dayOK ds en (allocTasks ds en buf idOf ts blocks gen).1 := by
  intro ts
  induction ts with
  | nil => intro blocks gen h; exact h
  | cons t ts ih =>
    intro blocks gen h
    rw [allocTasks]
    split
    · cases hg : findGap ds en buf blocks (normDur t) with
      | none => exact ih blocks gen h
      | some g =>
        obtain ⟨s, e⟩ := g
        simp only
        refine ih _ _ ?_
        refine dayOK_insert h hg ?_ rfl ((findGap_shape hg).1 ▸ rfl)
        unfold normDur
        omega
    · exact ih _ _ (placeSplit_dayOK _ _ _ _ h)

/-! ### Output is independent of the id supply, up to ids -/

/-- Erase the (randomly generated) id of a block. -/
def stripId (b : Block) : Block := { b with id := "" }

theorem sortByStart_map_stripId (l : List Block) :
    (sortByStart l).map stripId = sortByStart (l.map stripId) := by
  unfold sortByStart
  exact List.map_insertionSort bleStart bleStart stripId l
    (fun a _ b _ => Iff.rfl)

theorem findGapAux_map {buffer n endMin : Nat} :
    ∀ (bs₁ bs₂ : List Block) (cur : Nat), bs₁.map stripId = bs₂.map stripId →
      findGapAux buffer n endMin cur bs₁ = findGapAux buffer n endMin cur bs₂ := by
  intro bs₁
  induction bs₁ with
  | nil =>
    intro bs₂ cur h
    cases bs₂ with
    | nil => rfl
    | cons b₂ bs₂ => simp at h
  | cons b bs ih =>
    intro bs₂ cur h
    cases bs₂ with
    | nil => simp at h
    | cons b₂ bs₂ =>
      simp only [List.map_cons, List.cons.injEq] at h
      have hs := congrArg Block.startMin h.1
      have he := congrArg Block.endMin h.1
      simp only [stripId] at hs he
      rw [findGapAux, findGapAux, hs, he]
      split
      · rfl
      · exact ih bs₂ _ h.2

theorem findGap_map {st en buf n : Nat} {L₁ L₂ : List Block}
    (h : L₁.map stripId = L₂.map stripId) :
    findGap st en buf L₁ n = findGap st en buf L₂ n := by
  unfold findGap
  refine findGapAux_map _ _ _ ?_
  rw [sortByStart_map_stripId, sortByStart_map_stripId, h]

theorem insertBlock_map {blk₁ blk₂ : Block} {L₁ L₂ : List Block}
    (hb : stripId blk₁ = stripId blk₂) (h : L₁.map stripId = L₂.map stripId) :
    (insertBlock blk₁ L₁).map stripId = (insertBlock blk₂ L₂).map stripId := by
  unfold insertBlock
  rw [sortByStart_map_stripId, sortByStart_map_stripId]
  congr 1
  rw [List.map_append, List.map_append, h]
  simp [hb]

theorem placeSplit_map {ds en buf : Nat} {f g : Nat → String} {t : Task} {dur : Nat} :
    ∀ (fuel remaining : Nat) (L₁ L₂ : List Block) (gen : Nat),
      L₁.map stripId = L₂.map stripId →
      (placeSplit ds en buf f t dur fuel remaining L₁ gen).1.map stripId =
        (placeSplit ds en buf g t dur fuel remaining L₂ gen).1.map stripId ∧
      (placeSplit ds en buf f t dur fuel remaining L₁ gen).2 =
        (placeSplit ds en buf g t dur fuel remaining L₂ gen).2 := by
  intro fuel
  induction fuel with
  | zero =>
    intro remaining L₁ L₂ gen h
    cases remaining with
    | zero => exact ⟨h, rfl⟩
    | succ r => exact ⟨h, rfl⟩
  | succ fuel ih =>
    intro remaining L₁ L₂ gen h
    cases remaining with
    | zero => exact ⟨h, rfl⟩
    | succ r =>
      have hgap := @findGap_map ds en buf (chunkOf (r + 1)) L₁ L₂ h
      cases hg : findGap ds en buf L₁ (chunkOf (r + 1)) with
      | none =>
        have hg₂ : findGap ds en buf L₂ (chunkOf (r + 1)) = none := by
          rw [← hgap]; exact hg
        simp only [placeSplit, hg, hg₂]
        refine ⟨h, ?_⟩
        trivial
      | some p =>
        obtain ⟨s, e⟩ := p
        have hg₂ : findGap ds en buf L₂ (chunkOf (r + 1)) = some (s, e) := by
          rw [← hgap]; exact hg
        simp only [placeSplit, hg, hg₂]
        exact ih _ _ _ _ (insertBlock_map rfl h)

theorem allocTasks_map {ds en buf : Nat} {f g : Nat → String} :
    ∀ (ts : List Task) (L₁ L₂ : List Block) (gen : Nat),
      L₁.map stripId = L₂.map stripId →
      (allocTasks ds en buf f ts L₁ gen).1.map stripId =
        (allocTasks ds en buf g ts L₂ gen).1.map stripId ∧
      (allocTasks ds en buf f ts L₁ gen).2.1 =
        (allocTasks ds en buf g ts L₂ gen).2.1 ∧
      (allocTasks ds en buf f ts L₁ gen).2.2 =
        (allocTasks ds en buf g ts L₂ gen).2.2 := by
  intro ts
  induction ts with
  | nil => intro L₁ L₂ gen h; exact ⟨h, rfl, rfl⟩
  | cons t ts ih =>
    intro L₁ L₂ gen h
    rw [allocTasks, allocTasks]
    split
    · have hgap := @findGap_map ds en buf (normDur t) L₁ L₂ h
      cases hg : findGap ds en buf L₁ (normDur t) with
      | none =>
        have hg₂ : findGap ds en buf L₂ (normDur t) = none := by
          rw [← hgap]; exact hg
        simp only [hg, hg₂]
        obtain ⟨h1, h2, h3⟩ := ih L₁ L₂ gen h
        exact ⟨h1, by rw [h2], h3⟩
      | some p =>
        obtain ⟨s, e⟩ := p
        have hg₂ : findGap ds en buf L₂ (normDur t) = some (s, e) := by
          rw [← hgap]; exact hg
        simp only [hg, hg₂]
        exact ih _ _ _ (insertBlock_map rfl h)
    · dsimp only
      obtain ⟨hp1, hp2⟩ := @placeSplit_map ds en buf f g t (normDur t)
        (normDur t) (normDur t) L₁ L₂ gen h
      have hleft : (placeSplit ds en buf f t (normDur t) (normDur t) (normDur t) L₁ gen).2.1 =
          (placeSplit ds en buf g t (normDur t) (normDur t) (normDur t) L₂ gen).2.1 :=
        congrArg Prod.fst hp2
      have hgen : (placeSplit ds en buf f t (normDur t) (normDur t) (normDur t) L₁ gen).2.2 =
          (placeSplit ds en buf g t (normDur t) (normDur t) (normDur t) L₂ gen).2.2 :=
        congrArg Prod.snd hp2
      rw [hleft, hgen]
      obtain ⟨h1, h2, h3⟩ := ih _ _ _ hp1
      exact ⟨h1, by rw [h2], h3⟩

end AutoScheduler

namespace AutoScheduler

/-! ### The task ranker -/

/-- The deadline instant as the spec describes it: no deadline sorts last
(`none`), a date-only deadline is taken at 23:59 (minute 1439 of the day). -/
def specDeadline (t : Task) : Option Nat :=
  t.deadlineDate.map (fun d => d * 1440 + t.deadlineTime.getD 1439)

theorem dlKey_eq_specDeadline (t : Task) : dlKey t = specDeadline t := by
  rcases t with ⟨i, ti, du, pr, sp, dd, dt, ca, dn⟩
  cases dd <;> cases dt <;> rfl

/-- Strict order on optional deadline instants, `none` standing for plus
infinity (no deadline sorts after every deadline). -/
def dlLt (x y : Option Nat) : Prop :=
  match x, y with
  | some a, some b => a < b
  | some _, none => True
  | none, _ => False

theorem optLt_iff {x y : Option Nat} : optLt x y = true ↔ dlLt x y := by
  cases x <;> cases y <;> simp [optLt, dlLt]

theorem dlLt_irrefl (x : Option Nat) : ¬ dlLt x x := by
  cases x <;> simp [dlLt]

set_option linter.unnecessarySeqFocus false in
theorem dlLt_trichotomy (x y : Option Nat) : dlLt x y ∨ x = y ∨ dlLt y x := by
  cases x <;> cases y <;> simp [dlLt] <;> omega

set_option linter.unnecessarySeqFocus false in
theorem dlLt_trans {x y z : Option Nat} : dlLt x y → dlLt y z → dlLt x z := by
  cases x <;> cases y <;> cases z <;> simp [dlLt] <;> omega

/-- The deadline-first order exactly as the claim words it: deadline instant
ascending (no deadline last), then priority descending (高 = 3, 中 = 2,
低 = 1), then creation time ascending. -/
def specLeDue (a b : Task) : Prop :=
  dlLt (specDeadline a) (specDeadline b) ∨
    (specDeadline a = specDeadline b ∧
      (priorityScore b.priority < priorityScore a.priority ∨
        (priorityScore a.priority = priorityScore b.priority ∧
          a.createdAt ≤ b.createdAt)))

/-- The priority-first order as the claim words it: priority descending,
then deadline ascending (no deadline last), then creation time ascending. -/
def specLePriority (a b : Task) : Prop :=
  priorityScore b.priority < priorityScore a.priority ∨
    (priorityScore a.priority = priorityScore b.priority ∧
      (dlLt (specDeadline a) (specDeadline b) ∨
        (specDeadline a = specDeadline b ∧ a.createdAt ≤ b.createdAt)))

theorem leDue_iff {a b : Task} : leDue a b = true ↔ specLeDue a b := by
  unfold leDue specLeDue
  rw [← dlKey_eq_specDeadline a, ← dlKey_eq_specDeadline b]
  by_cases h1 : dlKey a = dlKey b
  · rw [if_pos h1]
    by_cases h2 : priorityScore a.priority = priorityScore b.priority
    · rw [if_pos h2]
      simp [h1, h2, dlLt_irrefl]
    · rw [if_neg h2]
      simp [h1, h2, dlLt_irrefl]
  · rw [if_neg h1]
    rw [optLt_iff]
    simp [h1]

theorem lePriority_iff {a b : Task} : lePriority a b = true ↔ specLePriority a b := by
  unfold lePriority specLePriority
  rw [← dlKey_eq_specDeadline a, ← dlKey_eq_specDeadline b]
  by_cases h2 : priorityScore a.priority = priorityScore b.priority
  · rw [if_pos h2]
    by_cases h1 : dlKey a = dlKey b
    · rw [if_pos h1]
      simp [h1, h2, dlLt_irrefl]
    · rw [if_neg h1]
      rw [optLt_iff]
      simp [h1, h2]
  · rw [if_neg h2]
    simp [h2]

theorem specLeDue_total (a b : Task) : specLeDue a b ∨ specLeDue b a := by
  unfold specLeDue
  rcases dlLt_trichotomy (specDeadline a) (specDeadline b) with h | h | h
  · exact Or.inl (Or.inl h)
  · rcases Nat.lt_trichotomy (priorityScore a.priority) (priorityScore b.priority)
      with hp | hp | hp
    · exact Or.inr (Or.inr ⟨h.symm, Or.inl hp⟩)
    · rcases Nat.le_total a.createdAt b.createdAt with hc | hc
      · exact Or.inl (Or.inr ⟨h, Or.inr ⟨hp, hc⟩⟩)
      · exact Or.inr (Or.inr ⟨h.symm, Or.inr ⟨hp.symm, hc⟩⟩)
    · exact Or.inl (Or.inr ⟨h, Or.inl hp⟩)
  · exact Or.inr (Or.inl h)

theorem specLeDue_trans {a b c : Task} :
    specLeDue a b → specLeDue b c → specLeDue a c := by
  unfold specLeDue
  rintro (h1 | ⟨he1, h1⟩) (h2 | ⟨he2, h2⟩)
  · exact Or.inl (dlLt_trans h1 h2)
  · exact Or.inl (he2 ▸ h1)
  · exact Or.inl (he1 ▸ h2)
  · refine Or.inr ⟨he1.trans he2, ?_⟩
    rcases h1 with h1 | ⟨hp1, hc1⟩ <;> rcases h2 with h2 | ⟨hp2, hc2⟩
    · exact Or.inl (by omega)
    · exact Or.inl (by omega)
    · exact Or.inl (by omega)
    · exact Or.inr ⟨by omega, by omega⟩

theorem specLePriority_total (a b : Task) : specLePriority a b ∨ specLePriority b a := by
  unfold specLePriority
  rcases Nat.lt_trichotomy (priorityScore a.priority) (priorityScore b.priority)
    with hp | hp | hp
  · exact Or.inr (Or.inl hp)
  · rcases dlLt_trichotomy (specDeadline a) (specDeadline b) with h | h | h
    · exact Or.inl (Or.inr ⟨hp, Or.inl h⟩)
    · rcases Nat.le_total a.createdAt b.createdAt with hc | hc
      · exact Or.inl (Or.inr ⟨hp, Or.inr ⟨h, hc⟩⟩)
      · exact Or.inr (Or.inr ⟨hp.symm, Or.inr ⟨h.symm, hc⟩⟩)
    · exact Or.inr (Or.inr ⟨hp.symm, Or.inl h⟩)
  · exact Or.inl (Or.inl hp)

theorem specLePriority_trans {a b c : Task} :
    specLePriority a b → specLePriority b c → specLePriority a c := by
  unfold specLePriority
  rintro (h1 | ⟨hp1, h1⟩) (h2 | ⟨hp2, h2⟩)
  · exact Or.inl (by omega)
  · exact Or.inl (by omega)
  · exact Or.inl (by omega)
  · refine Or.inr ⟨by omega, ?_⟩
    rcases h1 with h1 | ⟨he1, hc1⟩ <;> rcases h2 with h2 | ⟨he2, hc2⟩
    · exact Or.inl (dlLt_trans h1 h2)
    · exact Or.inl (he2 ▸ h1)
    · exact Or.inl (he1 ▸ h2)
    · exact Or.inr ⟨he1.trans he2, by omega⟩

instance : IsTotal Task (fun a b => leDue a b = true) :=
  ⟨fun a b => by
    simp only [leDue_iff]
    exact specLeDue_total a b⟩

instance : IsTrans Task (fun a b => leDue a b = true) :=
  ⟨fun a b c h1 h2 => by
    simp only [leDue_iff] at h1 h2 ⊢
    exact specLeDue_trans h1 h2⟩

instance : IsTotal Task (fun a b => lePriority a b = true) :=
  ⟨fun a b => by
    simp only [lePriority_iff]
    exact specLePriority_total a b⟩

instance : IsTrans Task (fun a b => lePriority a b = true) :=
  ⟨fun a b c h1 h2 => by
    simp only [lePriority_iff] at h1 h2 ⊢
    exact specLePriority_trans h1 h2⟩

theorem sortTasks_perm (strategy : String) (l : List Task) :
    (sortTasks strategy l).Perm l := by
  unfold sortTasks
  split
  · exact List.perm_insertionSort _ l
  · exact List.perm_insertionSort _ l

end AutoScheduler

namespace AutoScheduler

/-! ### Repositioner -/

theorem hasOverlap_iff {sched : List Block} {bid : String} {s e : Nat} :
    hasOverlap sched bid s e = true ↔
      ∃ b ∈ sched, b.id ≠ bid ∧ b.startMin < e ∧ s < b.endMin := by
  unfold hasOverlap
  rw [List.any_eq_true]
  constructor
  · rintro ⟨b, hb, hcond⟩
    simp only [Bool.and_eq_true, bne_iff_ne, Bool.not_eq_true',
      Bool.or_eq_false_iff, decide_eq_false_iff_not, Nat.not_le] at hcond
    exact ⟨b, mem_sortByStart.mp hb, hcond.1, hcond.2.1, hcond.2.2⟩
  · rintro ⟨b, hb, h1, h2, h3⟩
    refine ⟨b, mem_sortByStart.mpr hb, ?_⟩
    simp only [Bool.and_eq_true, bne_iff_ne, Bool.not_eq_true',
      Bool.or_eq_false_iff, decide_eq_false_iff_not, Nat.not_le]
    exact ⟨h1, h2, h3⟩

theorem updateFirst_mem {α : Type} {p : α → Bool} {f : α → α} :
    ∀ {l : List α} {b : α}, l.find? p = some b → f b ∈ updateFirst p f l := by
  intro l
  induction l with
  | nil => intro b h; simp [List.find?] at h
  | cons x xs ih =>
    intro b h
    by_cases hp : p x = true
    · rw [List.find?_cons_of_pos _ hp] at h
      simp only [Option.some.injEq] at h
      subst h
      unfold updateFirst
      rw [if_pos hp]
      exact List.mem_cons_self _ _
    · rw [List.find?_cons_of_neg _ (by simpa using hp)] at h
      unfold updateFirst
      rw [if_neg (by simpa using hp)]
      exact List.mem_cons_of_mem _ (ih h)

end AutoScheduler

namespace AutoScheduler

/-! ### Concrete example inputs used by witnesses and counterexamples -/

/-- A constant id supply. -/
def exIdX : Nat → String := fun _ => "x"

/-- An enumerating id supply. -/
def exId3 : Nat → String := fun n => if n = 0 then "a" else if n = 1 then "b" else "c"

def exSt1 : Settings :=
  { dayStart := 540, dayEnd := 720, buffer := 10, strategy := "due", lunch := none }

def exTaskA : Task :=
  { id := "ta", title := "A", duration := 60, priority := "中", split := "不可",
    deadlineDate := none, deadlineTime := none, createdAt := 0, done := false }

def exTaskB : Task :=
  { id := "tb", title := "B", duration := 30, priority := "中", split := "不可",
    deadlineDate := none, deadlineTime := none, createdAt := 1, done := false }

def exSt3 : Settings :=
  { dayStart := 0, dayEnd := 115, buffer := 0, strategy := "due", lunch := some (50, 55) }

def exT3 : Task :=
  { id := "t1", title := "T", duration := 100, priority := "中", split := "可",
    deadlineDate := none, deadlineTime := none, createdAt := 0, done := false }

def exSt3b : Settings :=
  { dayStart := 0, dayEnd := 45, buffer := 0, strategy := "due", lunch := none }

def exT3b : Task :=
  { id := "t1", title := "T", duration := 60, priority := "中", split := "可",
    deadlineDate := none, deadlineTime := none, createdAt := 0, done := false }

def exSt5 : Settings :=
  { dayStart := 780, dayEnd := 1080, buffer := 5, strategy := "due", lunch := some (720, 780) }

def exSt10 : Settings :=
  { dayStart := 0, dayEnd := 200, buffer := 0, strategy := "due", lunch := none }

def exT10 : Task :=
  { id := "t1", title := "T", duration := 40, priority := "中", split := "可",
    deadlineDate := none, deadlineTime := none, createdAt := 0, done := false }

def exSt8 : Settings :=
  { dayStart := 0, dayEnd := 100, buffer := 0, strategy := "due", lunch := none }

def exT8 : Task :=
  { id := "t1", title := "T", duration := 30, priority := "中", split := "不可",
    deadlineDate := none, deadlineTime := none, createdAt := 0, done := false }

def exBlkA : Block :=
  { id := "A", taskId := "ta", title := "A", startMin := 0, endMin := 10,
    fixed := false, done := false }

def exBlkB : Block :=
  { id := "B", taskId := "tb", title := "B", startMin := 20, endMin := 30,
    fixed := false, done := false }

def exSched7 : List Block := [exBlkA, exBlkB]

def exLunch9 : Block :=
  { id := "lunch", taskId := "lunch", title := "休憩", startMin := 720, endMin := 780,
    fixed := true, done := false }

/-! ### Claim theorems -/

/-- C1: every schedule produced by the Allocator (`buildSchedule`) is
pairwise non-overlapping — for any two blocks one ends at or before the
other starts — and every allocator-placed (non-fixed) block starts at
least `buffer` minutes after the end of every earlier-starting block; in
particular consecutive non-fixed blocks are separated by at least the
configured buffer. -/
theorem C1_no_overlap (st : Settings) (idOf : Nat → String) (tasks : List Task) :
    List.Pairwise (fun a b => a.endMin ≤ b.startMin ∨ b.endMin ≤ a.startMin)
      (buildSchedule st idOf tasks).placed ∧
    ∀ b ∈ (buildSchedule st idOf tasks).placed, b.fixed = false →
      ∀ a ∈ (buildSchedule st idOf tasks).placed, a.startMin < b.startMin →
        a.endMin + st.buffer ≤ b.startMin := by
  have h := buildSchedule_INV st idOf tasks
  exact ⟨h.2.1, fun b hb hbf a ha hlt => (h.2.2 b hb hbf).2.1 a ha hlt⟩

/-- Witness for C1: a concrete run (day 09:00–12:00, buffer 10, two
non-splittable tasks of 60 and 30 minutes) places blocks 540–600 and
610–640, and the theorem yields the buffer separation 600 + 10 ≤ 610. -/
theorem C1_no_overlap_witness :
    ((⟨"x", "tb", "B", 610, 640, false, false⟩ : Block) ∈
        (buildSchedule exSt1 exIdX [exTaskA, exTaskB]).placed ∧
      (⟨"x", "tb", "B", 610, 640, false, false⟩ : Block).fixed = false ∧
      (⟨"x", "ta", "A", 540, 600, false, false⟩ : Block) ∈
        (buildSchedule exSt1 exIdX [exTaskA, exTaskB]).placed ∧
      (540 : Nat) < 610) ∧
    (600 : Nat) + exSt1.buffer ≤ 610 :=
  ⟨⟨by decide, by decide, by decide, by decide⟩,
    (C1_no_overlap exSt1 exIdX [exTaskA, exTaskB]).2
      ⟨"x", "tb", "B", 610, 640, false, false⟩ (by decide) (by decide)
      ⟨"x", "ta", "A", 540, 600, false, false⟩ (by decide) (by decide)⟩

/-- C2 counterexample: with day window 600–700 and a block at 800–900,
`findGap` for 150 minutes returns a result (the gap 600–750 before the
next occupied start) although no position of size 150 fits before day-end
— so "returns no result exactly when no such position exists before
day-end" fails as a biconditional on arbitrary block sets. -/
theorem C2_counterexample :
    findGap 600 700 0 [⟨"z", "z", "Z", 800, 900, true, false⟩] 150 = some (600, 750) ∧
    ∀ p : Nat, validPos 600 0 150 [⟨"z", "z", "Z", 800, 900, true, false⟩] p →
      ¬ (p + 150 ≤ 700) := by
  refine ⟨by decide, ?_⟩
  intro p hp
  have := hp.1
  omega

/-- C2 amended: `findGap` scans blocks in start order advancing a cursor to
max(cursor, end + buffer); a returned gap is the least valid position (at
or after day-start and buffer-clear of every block it follows); and
provided every block lies within the day (start ≤ end ≤ day-end), it
returns no result exactly when no valid position fits before day-end. -/
theorem C2_gap_characterisation (st en buf n : Nat) (L : List Block)
    (hwf : ∀ b ∈ L, b.startMin ≤ b.endMin ∧ b.endMin ≤ en) :
    (∀ s e, findGap st en buf L n = some (s, e) →
      e = s + n ∧ validPos st buf n L s ∧ (∀ p, validPos st buf n L p → s ≤ p) ∧
      s + n ≤ en) ∧
    (findGap st en buf L n = none ↔ ¬ ∃ p, validPos st buf n L p ∧ p + n ≤ en) := by
  constructor
  · intro s e h
    exact ⟨(findGap_shape h).1, findGap_isValid h, fun p hp => findGap_min h hp,
      findGap_within hwf h⟩
  · constructor
    · rintro h ⟨p, hp, hpe⟩
      exact findGap_none h hp hpe
    · intro h
      cases hg : findGap st en buf L n with
      | none => rfl
      | some g =>
        obtain ⟨s, e⟩ := g
        exact absurd ⟨s, findGap_isValid hg, findGap_within hwf hg⟩ h

/-- Witness for C2: with one block 10–20 inside the day 0–100, position 0 is
valid for a 10-minute request (and is indeed returned). -/
theorem C2_gap_characterisation_witness :
    (∀ b ∈ [(⟨"w", "w", "W", 10, 20, true, false⟩ : Block)],
        b.startMin ≤ b.endMin ∧ b.endMin ≤ 100) ∧
    validPos 0 5 10 [(⟨"w", "w", "W", 10, 20, true, false⟩ : Block)] 0 :=
  ⟨by decide,
    ((C2_gap_characterisation 0 100 5 10 [⟨"w", "w", "W", 10, 20, true, false⟩]
      (by decide)).1 0 10 (by decide)).2.1⟩

/-- C3 counterexample: a splittable 60-minute task in an open 45-minute day
(0–45, buffer 0) is left entirely unplaced with remainder 60, although the
candidate chunk size 45 ≤ 60 has a gap (`findGap` returns 0–45): the code
computes the single chunk 60 from `remaining` alone and gives up when that
one candidate has no gap, with no fallback to 45/30. -/
theorem C3_counterexample :
    (buildSchedule exSt3b exIdX [exT3b]).placed = [] ∧
    (buildSchedule exSt3b exIdX [exT3b]).unplaced = [(exT3b, 60)] ∧
    findGap 0 45 0 [] 45 = some (0, 45) ∧ (45 : Nat) ≤ 60 :=
  ⟨by decide, by decide, by decide, by decide⟩

/-- C3 amended: the chunk size is chosen from `remaining` alone (60 if
remaining ≥ 60, else 45, else 30, else remaining); when the loop stops
with a positive leftover, that single candidate chunk has no gap in the
blocks as they then stand (no fallback is attempted); and the scenario —
splittable task of 100 minutes in a day with free gaps of 50 and 60
minutes around a fixed block — is fully placed with remainder 0, as three
blocks of 60, 30 and 10 minutes (not two blocks of 50). -/
theorem C3_chunk_loop :
    (∀ (ds en buf : Nat) (idOf : Nat → String) (t : Task) (dur fuel remaining : Nat)
        (blocks : List Block) (gen : Nat),
      remaining ≤ fuel →
      0 < (placeSplit ds en buf idOf t dur fuel remaining blocks gen).2.1 →
      findGap ds en buf (placeSplit ds en buf idOf t dur fuel remaining blocks gen).1
        (chunkOf (placeSplit ds en buf idOf t dur fuel remaining blocks gen).2.1) =
        none) ∧
    (buildSchedule exSt3 exId3 [exT3]).placed =
      [⟨"b", "t1", "T（分割）", 0, 30, false, false⟩,
       ⟨"c", "t1", "T（分割）", 30, 40, false, false⟩,
       ⟨"lunch", "lunch", "休憩", 50, 55, true, false⟩,
       ⟨"a", "t1", "T（分割）", 55, 115, false, false⟩] ∧
    (buildSchedule exSt3 exId3 [exT3]).unplaced = [] := by
  refine ⟨?_, by decide, by decide⟩
  intro ds en buf idOf t dur fuel remaining blocks gen h1 h2
  exact placeSplit_leftover_no_gap fuel remaining blocks gen h1 h2

/-- Witness for C3: the 60-minute splittable task in the 45-minute day stops
with leftover 60, and the theorem yields that its chunk (60) has no gap in
the final block state. -/
theorem C3_chunk_loop_witness :
    ((60 : Nat) ≤ 60 ∧
      0 < (placeSplit 0 45 0 exIdX exT3b 60 60 60 [] 0).2.1) ∧
    findGap 0 45 0 (placeSplit 0 45 0 exIdX exT3b 60 60 60 [] 0).1
      (chunkOf (placeSplit 0 45 0 exIdX exT3b 60 60 60 [] 0).2.1) = none :=
  ⟨⟨by decide, by decide⟩,
    C3_chunk_loop.1 0 45 0 exIdX exT3b 60 60 60 [] 0 (by decide) (by decide)⟩

/-- C4: under the deadline-first strategy (`"due"`, the default) the ranker
sorts by deadline instant ascending (no deadline last, date-only at
23:59), then priority descending, then creation ascending; under
`"priority"` by priority descending, then deadline ascending, then
creation ascending; both are permutations and ranking twice yields the
same order. -/
theorem C4_ranker (l : List Task) :
    List.Sorted specLeDue (sortTasks "due" l) ∧
    (sortTasks "due" l).Perm l ∧
    sortTasks "due" (sortTasks "due" l) = sortTasks "due" l ∧
    List.Sorted specLePriority (sortTasks "priority" l) ∧
    (sortTasks "priority" l).Perm l ∧
    sortTasks "priority" (sortTasks "priority" l) = sortTasks "priority" l := by
  have hd : ∀ m : List Task,
      sortTasks "due" m = List.insertionSort (fun a b => leDue a b = true) m := by
    intro m
    unfold sortTasks
    rw [if_neg (by decide)]
  have hp : ∀ m : List Task,
      sortTasks "priority" m = List.insertionSort (fun a b => lePriority a b = true) m := by
    intro m
    unfold sortTasks
    rw [if_pos rfl]
  refine ⟨?_, ?_, ?_, ?_, ?_, ?_⟩
  · rw [hd]
    exact (List.sorted_insertionSort _ l).imp (fun h => leDue_iff.mp h)
  · rw [hd]
    exact List.perm_insertionSort _ l
  · simp only [hd]
    exact List.Sorted.insertionSort_eq (List.sorted_insertionSort _ l)
  · rw [hp]
    exact (List.sorted_insertionSort _ l).imp (fun h => lePriority_iff.mp h)
  · rw [hp]
    exact List.perm_insertionSort _ l
  · simp only [hp]
    exact List.Sorted.insertionSort_eq (List.sorted_insertionSort _ l)

/-- C5 counterexample: with day window 13:00–18:00 (780–1080) and the lunch
window configured as 12:00–13:00 (720–780), `buildSchedule` emits the
fixed lunch block unclamped, so a produced block starts before dayStart. -/
theorem C5_counterexample :
    ¬ ∀ b ∈ (buildSchedule exSt5 exIdX []).placed,
        exSt5.dayStart ≤ b.startMin ∧ b.startMin < b.endMin ∧
          b.endMin ≤ exSt5.dayEnd := by
  decide

/-- C5 amended: provided the configured lunch window (when present) lies
within the day window, every block produced by `buildSchedule` — the
fixed lunch block included — satisfies dayStart ≤ start < end ≤ dayEnd. -/
theorem C5_day_bounds (st : Settings) (idOf : Nat → String) (tasks : List Task)
    (hl : ∀ p, getLunchBlock st = some p → st.dayStart ≤ p.1 ∧ p.2 ≤ st.dayEnd) :
    ∀ b ∈ (buildSchedule st idOf tasks).placed,
      st.dayStart ≤ b.startMin ∧ b.startMin < b.endMin ∧ b.endMin ≤ st.dayEnd := by
  unfold buildSchedule
  simp only
  apply allocTasks_dayOK
  cases hlb : getLunchBlock st with
  | none =>
    intro b hb
    exact absurd hb (by simp)
  | some p =>
    intro b hb
    rcases List.mem_cons.mp hb with rfl | hb
    · have h1 := getLunchBlock_wf hlb
      have h2 := hl p hlb
      exact ⟨h2.1, h1, h2.2⟩
    · exact absurd hb (by simp)

/-- Witness for C5: the scenario day 0–115 with lunch 50–55 satisfies the
lunch-within-day hypothesis, and the placed block 55–115 is within the
day bounds. -/
theorem C5_day_bounds_witness :
    (∀ p, getLunchBlock exSt3 = some p →
      exSt3.dayStart ≤ p.1 ∧ p.2 ≤ exSt3.dayEnd) ∧
    (exSt3.dayStart ≤ (55 : Nat) ∧ (55 : Nat) < 115 ∧ (115 : Nat) ≤ exSt3.dayEnd) := by
  have hl : ∀ p, getLunchBlock exSt3 = some p →
      exSt3.dayStart ≤ p.1 ∧ p.2 ≤ exSt3.dayEnd := by
    intro p hp
    simp only [exSt3, getLunchBlock] at hp
    rw [if_neg (by decide)] at hp
    simp only [Option.some.injEq] at hp
    subst hp
    exact ⟨by decide, by decide⟩
  exact ⟨hl, C5_day_bounds exSt3 exId3 [exT3] hl
    ⟨"a", "t1", "T（分割）", 55, 115, false, false⟩ (by decide)⟩

end AutoScheduler

namespace AutoScheduler

/-- C6: for every pending task given to the Allocator (with the data-model
invariants: distinct opaque ids, none equal to the `"lunch"` sentinel, and
a positive 5-minute-grid duration), the minutes placed for the task plus
the unplaced remainder recorded for it (zero when it has no Unplaced
entry) equal the task's duration. -/
theorem C6_conservation (st : Settings) (idOf : Nat → String) (tasks : List Task)
    (t : Task) (ht : t ∈ tasks) (hdone : t.done = false)
    (hids : List.Pairwise (fun a b : Task => a.id ≠ b.id) tasks)
    (hlunch : t.id ≠ "lunch")
    (hgrid : t.duration % 5 = 0) (hpos : 0 < t.duration) :
    blocksFor t.id (buildSchedule st idOf tasks).placed +
      remainderFor t.id (buildSchedule st idOf tasks).unplaced = t.duration := by
  have hnorm : normDur t = t.duration := by
    unfold normDur
    omega
  unfold buildSchedule
  simp only
  have hmem : t ∈ sortTasks st.strategy (tasks.filter fun x => !x.done) := by
    have h1 : t ∈ tasks.filter (fun x => !x.done) :=
      List.mem_filter.mpr ⟨ht, by simp [hdone]⟩
    exact (sortTasks_perm _ _).mem_iff.mpr h1
  have hpair : List.Pairwise (fun a b : Task => a.id ≠ b.id)
      (sortTasks st.strategy (tasks.filter fun x => !x.done)) := by
    have h1 : List.Pairwise (fun a b : Task => a.id ≠ b.id)
        (tasks.filter fun x => !x.done) :=
      hids.sublist (List.filter_sublist tasks)
    exact ((sortTasks_perm _ _).pairwise_iff (fun {a b} hab => hab.symm)).mpr h1
  have hbase : ∀ base : List Block, (∀ b ∈ base, b.taskId = "lunch") →
      blocksFor t.id base = 0 := by
    intro base hb
    induction base with
    | nil => rfl
    | cons x xs ih =>
      rw [blocksFor_cons, ih (fun b h => hb b (List.mem_cons_of_mem _ h))]
      have hx := hb x (List.mem_cons_self _ _)
      rw [Nat.add_zero, if_neg]
      intro h
      exact hlunch (h ▸ hx)
  have hcore : ∀ base : List Block, (∀ b ∈ base, b.taskId = "lunch") →
      blocksFor t.id (allocTasks st.dayStart st.dayEnd st.buffer idOf
          (sortTasks st.strategy (tasks.filter fun x => !x.done)) base 0).1 +
        remainderFor t.id (allocTasks st.dayStart st.dayEnd st.buffer idOf
          (sortTasks st.strategy (tasks.filter fun x => !x.done)) base 0).2.1 =
      t.duration := by
    intro base hb
    have hacc := @allocTasks_account st.dayStart st.dayEnd st.buffer idOf t
      (sortTasks st.strategy (tasks.filter fun x => !x.done)) base 0 hmem hpair
    rw [hacc, hbase base hb, hnorm]
    omega
  apply hcore
  cases hlb : getLunchBlock st with
  | none =>
    intro b hb
    exact absurd hb (List.not_mem_nil b)
  | some p =>
    intro b hb
    rcases List.mem_cons.mp hb with rfl | hb
    · rfl
    · exact absurd hb (List.not_mem_nil b)

/-- Witness for C6: in the concrete two-task run, task `ta` (60 minutes,
placed in full) conserves 60 + 0 = 60. -/
theorem C6_conservation_witness :
    (exTaskA ∈ [exTaskA, exTaskB] ∧ exTaskA.done = false ∧
      List.Pairwise (fun a b : Task => a.id ≠ b.id) [exTaskA, exTaskB] ∧
      exTaskA.id ≠ "lunch" ∧ exTaskA.duration % 5 = 0 ∧ 0 < exTaskA.duration) ∧
    blocksFor exTaskA.id (buildSchedule exSt1 exIdX [exTaskA, exTaskB]).placed +
      remainderFor exTaskA.id (buildSchedule exSt1 exIdX [exTaskA, exTaskB]).unplaced =
      exTaskA.duration :=
  ⟨⟨by decide, by decide, by decide, by decide, by decide, by decide⟩,
    C6_conservation exSt1 exIdX [exTaskA, exTaskB] exTaskA (by decide) (by decide)
      (by decide) (by decide) (by decide) (by decide)⟩

/-- C7: for a manual move of an existing non-fixed block, the candidate
range is accepted — the block's [start, end) replaced and the list
re-sorted — exactly when it strictly overlaps no other block (fixed or
not, no buffer involved); on overlap the store is returned entirely
unchanged (a silent revert, no error). -/
theorem C7_move (sched : List Block) (bid : String) (s e : Nat) (b : Block)
    (hfind : (sortByStart sched).find? (fun x => x.id == bid) = some b)
    (hfx : b.fixed = false) :
    (hasOverlap sched bid s e = true ↔
      ∃ x ∈ sched, x.id ≠ bid ∧ x.startMin < e ∧ s < x.endMin) ∧
    (hasOverlap sched bid s e = true → moveBlock sched bid s e = sched) ∧
    (hasOverlap sched bid s e = false →
      moveBlock sched bid s e =
        sortByStart (updateFirst (fun x => x.id == bid)
          (fun x => { x with startMin := s, endMin := e }) (sortByStart sched)) ∧
      { b with startMin := s, endMin := e } ∈ moveBlock sched bid s e) := by
  refine ⟨hasOverlap_iff, ?_, ?_⟩
  · intro hov
    simp [moveBlock, hfind, hfx, hov]
  · intro hov
    have hmv : moveBlock sched bid s e =
        sortByStart (updateFirst (fun x => x.id == bid)
          (fun x => { x with startMin := s, endMin := e }) (sortByStart sched)) := by
      simp [moveBlock, hfind, hfx, hov]
    refine ⟨hmv, ?_⟩
    rw [hmv, mem_sortByStart]
    exact updateFirst_mem hfind

/-- Witness for C7: moving block `A` (0–10) to 40–50 in a two-block day has
no overlap and the moved block appears with the new range. -/
theorem C7_move_witness :
    ((sortByStart exSched7).find? (fun x => x.id == "A") = some exBlkA ∧
      exBlkA.fixed = false ∧ hasOverlap exSched7 "A" 40 50 = false) ∧
    { exBlkA with startMin := 40, endMin := 50 } ∈ moveBlock exSched7 "A" 40 50 :=
  ⟨⟨by decide, by decide, by decide⟩,
    ((C7_move exSched7 "A" 40 50 exBlkA (by decide) (by decide)).2.2 (by decide)).2⟩

/-- C8 counterexample: the Allocator stamps each placed block with a fresh
random id (`uid()`, modelled as the id supply); two runs whose id supplies
differ produce different Block lists on identical (Tasks, Settings, fixed
Blocks), so the output is not byte-identical including ids. -/
theorem C8_counterexample :
    buildSchedule exSt8 (fun _ => "a") [exT8] ≠
      buildSchedule exSt8 (fun _ => "b") [exT8] := by
  decide

/-- C8 amended: identical (Tasks, Settings, fixed Blocks) inputs yield
identical Allocator output up to the freshly generated block ids: for any
two id supplies the placed lists agree after erasing ids (same order,
taskIds, titles, times, flags) and the Unplaced lists are equal. -/
theorem C8_deterministic_up_to_ids (st : Settings) (f g : Nat → String)
    (tasks : List Task) :
    (buildSchedule st f tasks).placed.map stripId =
      (buildSchedule st g tasks).placed.map stripId ∧
    (buildSchedule st f tasks).unplaced = (buildSchedule st g tasks).unplaced := by
  unfold buildSchedule
  simp only
  obtain ⟨h1, h2, _⟩ := allocTasks_map (f := f) (g := g)
    (sortTasks st.strategy (tasks.filter fun x => !x.done)) _ _ 0 rfl
  exact ⟨h1, h2⟩

/-- C9 counterexample: `removeBlock` refuses to delete a fixed block: with
the fixed lunch block present and its id given, the store is returned
unchanged, so removal is not validated by existence alone. -/
theorem C9_counterexample :
    (∃ x ∈ [exLunch9], x.id = "lunch") ∧
    removeBlock [exLunch9] "lunch" = [exLunch9] :=
  ⟨by decide, by decide⟩

/-- C9 amended: both operations are validated only on the stored day list
(no Interval Set is consulted): for an existing block id, `removeBlock`
deletes the block exactly when it is not fixed (a fixed block is left in
place, store unchanged), and `toggleBlockDone` flips the block's done
flag regardless of any other property, fixed blocks included. -/
theorem C9_blockops (sched : List Block) (tasks : List Task) (bid : String) (b : Block)
    (hfind : (sortByStart sched).find? (fun x => x.id == bid) = some b) :
    (b.fixed = true → removeBlock sched bid = sched) ∧
    (b.fixed = false →
      removeBlock sched bid = (sortByStart sched).filter (fun x => x.id != bid)) ∧
    (toggleBlockDone sched tasks bid).1 =
      updateFirst (fun x => x.id == bid) (fun x => { x with done := !x.done })
        (sortByStart sched) ∧
    { b with done := !b.done } ∈ (toggleBlockDone sched tasks bid).1 := by
  have htog : (toggleBlockDone sched tasks bid).1 =
      updateFirst (fun x => x.id == bid) (fun x => { x with done := !x.done })
        (sortByStart sched) := by
    simp only [toggleBlockDone, hfind]
    split
    · rfl
    · rfl
  refine ⟨?_, ?_, htog, ?_⟩
  · intro h
    simp [removeBlock, hfind, h]
  · intro h
    simp [removeBlock, hfind, h]
  · rw [htog]
    exact updateFirst_mem hfind

/-- Witness for C9: removing the non-fixed block `A` deletes it (filter by
id on the sorted store). -/
theorem C9_blockops_witness :
    ((sortByStart exSched7).find? (fun x => x.id == "A") = some exBlkA ∧
      exBlkA.fixed = false) ∧
    removeBlock exSched7 "A" = (sortByStart exSched7).filter (fun x => x.id != "A") :=
  ⟨⟨by decide, by decide⟩,
    (C9_blockops exSched7 [] "A" exBlkA (by decide)).2.1 (by decide)⟩

/-- C10 counterexample: a splittable 40-minute task in an open day is placed
as two chunks (30 then 10), and 2 chunks exceed duration/30 = 40/30; the
claimed bound "at most duration/30 chunks" fails. -/
theorem C10_counterexample :
    countFor "t1" (buildSchedule exSt10 exIdX [exT10]).placed = 2 ∧
    ¬ (countFor "t1" (buildSchedule exSt10 exIdX [exT10]).placed * 30 ≤
        exT10.duration) :=
  ⟨by decide, by decide⟩

/-- C10 amended: the Allocator is a total function making one pass over the
tasks, and for every pending task (distinct ids, not the lunch sentinel,
positive 5-minute-grid duration) the number of blocks placed for it is at
most ⌈duration/30⌉, the ceiling being reached because the final chunk may
be shorter than 30 minutes. -/
theorem C10_chunk_bound (st : Settings) (idOf : Nat → String) (tasks : List Task)
    (t : Task) (ht : t ∈ tasks) (hdone : t.done = false)
    (hids : List.Pairwise (fun a b : Task => a.id ≠ b.id) tasks)
    (hlunch : t.id ≠ "lunch")
    (hgrid : t.duration % 5 = 0) (hpos : 0 < t.duration) :
    countFor t.id (buildSchedule st idOf tasks).placed ≤ (t.duration + 29) / 30 := by
  have hnorm : normDur t = t.duration := by
    unfold normDur
    omega
  unfold buildSchedule
  simp only
  have hmem : t ∈ sortTasks st.strategy (tasks.filter fun x => !x.done) := by
    have h1 : t ∈ tasks.filter (fun x => !x.done) :=
      List.mem_filter.mpr ⟨ht, by simp [hdone]⟩
    exact (sortTasks_perm _ _).mem_iff.mpr h1
  have hpair : List.Pairwise (fun a b : Task => a.id ≠ b.id)
      (sortTasks st.strategy (tasks.filter fun x => !x.done)) := by
    have h1 : List.Pairwise (fun a b : Task => a.id ≠ b.id)
        (tasks.filter fun x => !x.done) :=
      hids.sublist (List.filter_sublist tasks)
    exact ((sortTasks_perm _ _).pairwise_iff (fun {a b} hab => hab.symm)).mpr h1
  have hbase : ∀ base : List Block, (∀ b ∈ base, b.taskId = "lunch") →
      countFor t.id base = 0 := by
    intro base hb
    induction base with
    | nil => rfl
    | cons x xs ih =>
      rw [countFor_cons, ih (fun b h => hb b (List.mem_cons_of_mem _ h))]
      have hx := hb x (List.mem_cons_self _ _)
      rw [Nat.add_zero, if_neg]
      intro h
      exact hlunch (h ▸ hx)
  have hcore : ∀ base : List Block, (∀ b ∈ base, b.taskId = "lunch") →
      countFor t.id (allocTasks st.dayStart st.dayEnd st.buffer idOf
          (sortTasks st.strategy (tasks.filter fun x => !x.done)) base 0).1 ≤
        (t.duration + 29) / 30 := by
    intro base hb
    have hcount := @allocTasks_count st.dayStart st.dayEnd st.buffer idOf t
      (sortTasks st.strategy (tasks.filter fun x => !x.done)) base 0 hmem hpair
    rw [hnorm, hbase base hb, Nat.zero_add] at hcount
    exact hcount
  apply hcore
  cases hlb : getLunchBlock st with
  | none =>
    intro b hb
    exact absurd hb (List.not_mem_nil b)
  | some p =>
    intro b hb
    rcases List.mem_cons.mp hb with rfl | hb
    · rfl
    · exact absurd hb (List.not_mem_nil b)

/-- Witness for C10: the 40-minute splittable task is placed as 2 blocks and
2 ≤ ⌈40/30⌉ = 3... in fact (40 + 29) / 30 = 2, and 2 ≤ 2. -/
theorem C10_chunk_bound_witness :
    (exT10 ∈ [exT10] ∧ exT10.done = false ∧
      List.Pairwise (fun a b : Task => a.id ≠ b.id) [exT10] ∧
      exT10.id ≠ "lunch" ∧ exT10.duration % 5 = 0 ∧ 0 < exT10.duration) ∧
    countFor exT10.id (buildSchedule exSt10 exIdX [exT10]).placed ≤
      (exT10.duration + 29) / 30 :=
  ⟨⟨by decide, by decide, by decide, by decide, by decide, by decide⟩,
    C10_chunk_bound exSt10 exIdX [exT10] exT10 (by decide) (by decide) (by decide)
      (by decide) (by decide) (by decide)⟩

end AutoScheduler
